import Mathlib

/-!
Verification of the texture-channel separation script (src/script.py).

The script walks a source directory, selects filenames that contain the
marker substring "_rmo" (lowercased) and end with a supported image
extension, decodes each such image, converts it to RGBA, splits it into
four single-channel planes, optionally inverts selected planes, and saves
each plane as a grayscale PNG, logging one line per saved file, one line
per processed file and one line per failure.

The embedding below models filenames and log lines as `List Char`,
pixel planes as `List Nat` (8-bit values, so every value is at most 255
when the decoder is well formed), and the filesystem / decoder as an
explicit environment `Env` of fallible oracles.  Pure string helpers
(`str.lower`, substring test, `endswith`, `os.path.splitext`,
`os.path.join`) are translated from their CPython semantics.
-/

/-- Tests whether `pat` is an initial segment of `s` (CPython `str.startswith`
restricted to exact character lists). -/
def startsWithPat : List Char → List Char → Bool
  | [], _ => true
  | _ :: _, [] => false
  | p :: ps, c :: cs => p == c && startsWithPat ps cs

/-- Tests whether `s` ends with `pat` (CPython `str.endswith` for a single
pattern). -/
def endsWithPat (s pat : List Char) : Bool :=
  startsWithPat pat.reverse s.reverse

/-- Substring membership, CPython `pat in s`. -/
def hasSub (pat : List Char) : List Char → Bool
  | [] => pat.isEmpty
  | c :: rest => startsWithPat pat (c :: rest) || hasSub pat rest

/-- CPython `str.lower` on the ASCII characters that occur in filenames,
modelled with `Char.toLower` (lowercases exactly the basic latin capitals). -/
def lowerName (s : List Char) : List Char :=
  s.map Char.toLower

/-- Splits a character list at its last dot: returns the part before the last
dot and the part from the last dot on, or `none` when no dot occurs. -/
def splitAtLastDot : List Char → Option (List Char × List Char)
  | [] => none
  | c :: rest =>
    match splitAtLastDot rest with
    | some (b, e) => some (c :: b, e)
    | none => if c == '.' then some ([], c :: rest) else none

/-- CPython `os.path.splitext` for a bare filename (no path separators):
splits at the last dot unless every character before that dot is itself a
dot (the leading-dot rule, under which no split happens). -/
def splitext (s : List Char) : List Char × List Char :=
  match splitAtLastDot s with
  | some (b, e) => if b.any (fun c => c != '.') then (b, e) else (s, [])
  | none => (s, [])

/-- CPython `posixpath.join` for two components. -/
def pathJoin (a b : List Char) : List Char :=
  match b with
  | '/' :: _ => b
  | _ =>
    if a.isEmpty then b
    else if endsWithPat a ([ '/' ]) then a ++ b
    else a ++ '/' :: b

/-- The marker substring required in eligible filenames (script.py line 39). -/
def rmoMarker : List Char := "_rmo".data

/-- Supported image extensions (script.py line 34). -/
def supported_formats : List (List Char) :=
  [".png".data, ".jpg".data, ".jpeg".data, ".tga".data,
   ".tif".data, ".tiff".data, ".bmp".data, ".exr".data]

/-- Eligibility filter of script.py line 39: the lowercased filename must
contain the marker substring and end with a supported extension. -/
def eligible (filename : List Char) : Bool :=
  hasSub rmoMarker (lowerName filename) &&
    supported_formats.any (fun ext => endsWithPat (lowerName filename) ext)

/-- Decoded raster with 1 to 4 bands, following the data model of the spec
(gray, gray plus alpha, RGB, RGBA).  Each band is a flat list of 8-bit
pixel values. -/
inductive Raster where
  | mkL : List Nat → Raster
  | mkLA : List Nat → List Nat → Raster
  | mkRGB : List Nat → List Nat → List Nat → Raster
  | mkRGBA : List Nat → List Nat → List Nat → List Nat → Raster
  deriving DecidableEq

/-- The mode test `img.mode != 'RGBA'` of script.py line 46. -/
def Raster.isRGBA : Raster → Bool
  | .mkRGBA _ _ _ _ => true
  | _ => false

/-- Models the PIL call `img.convert('RGBA')` (script.py line 47), per the
spec: the gray band is replicated into R, G and B, and a missing alpha band
defaults to fully opaque (255 everywhere). -/
def convertRGBA : Raster → Raster
  | .mkL g => .mkRGBA g g g (List.replicate g.length 255)
  | .mkLA g a => .mkRGBA g g g a
  | .mkRGB r g b => .mkRGBA r g b (List.replicate r.length 255)
  | .mkRGBA r g b a => .mkRGBA r g b a

/-- Models the PIL call `img.split()` (script.py line 50): the list of
single-channel planes of the raster, in band order. -/
def rasterSplit : Raster → List (List Nat)
  | .mkL g => [g]
  | .mkLA g a => [g, a]
  | .mkRGB r g b => [r, g, b]
  | .mkRGBA r g b a => [r, g, b, a]

/-- Number of bands of a raster. -/
def bandCount (r : Raster) : Nat :=
  (rasterSplit r).length

/-- The suffix-to-index mapping of script.py lines 26-31, as an ordered
association list (Python dicts iterate in insertion order). -/
def channel_info : List (List Char × Nat) :=
  [("_r".data, 0), ("_g".data, 1), ("_b".data, 2), ("_a".data, 3)]

/-- The Boolean of script.py line 72: `invert_channels and suffix[1] in
invert_channels`.  `none` models the Python value `None` (falsy); an empty
list is falsy as well, so the membership test is reached only for a
nonempty list. -/
def truthyMem (inv : Option (List Char)) (c : Char) : Bool :=
  match inv with
  | none => false
  | some l => !l.isEmpty && l.contains c

/-- The per-channel inversion of script.py lines 72-73.  Pixel values of a
decoded 8-bit plane satisfy `v ≤ 255`, so the uint8 subtraction `255 - v`
of the numpy expression never wraps and agrees with truncated `Nat`
subtraction. -/
def applyInversion (inv : Option (List Char)) (letter : Char) (channel : List Nat) : List Nat :=
  if truthyMem inv letter then channel.map (fun v => 255 - v) else channel

/-- The job configuration: the four arguments of
`process_texture_channels` (script.py line 7). -/
structure Config where
  input_folder : List Char
  output_folder : List Char
  invert_channels : Option (List Char)
  create_subfolders : Bool

/-- Environment of external oracles: directory listing, image decoding,
directory existence, directory creation and file saving.  Each fallible
operation returns `Except`, with the error message standing for the Python
exception text. -/
structure Env where
  listdir : List Char → Except (List Char) (List (List Char))
  openImage : List Char → Except (List Char) Raster
  dirExists : List Char → Bool
  mkdirs : List Char → Except (List Char) Unit
  save : List Char → Except (List Char) Unit

/-- Observable effects of the run: a file save (path and single-channel
8-bit payload) or a printed log line. -/
inductive Event where
  | save : List Char → List Nat → Event
  | log : List Char → Event
  deriving DecidableEq

/-- Destination-directory computation of script.py lines 56-63: with
subfolders enabled the subfolder `output_folder/base_name` is used and
created when absent; otherwise the output folder itself is used. -/
def outputDirFor (cfg : Config) (env : Env) (base_name : List Char) :
    Except (List Char) (List Char) :=
  if cfg.create_subfolders then
    let sub := pathJoin cfg.output_folder base_name
    if env.dirExists sub then Except.ok sub
    else
      match env.mkdirs sub with
      | Except.ok _ => Except.ok sub
      | Except.error e => Except.error e
  else Except.ok cfg.output_folder

/-- The channel loop of script.py lines 66-81, over the (suffix, index)
pairs of `channel_info`: for every index below the channel count, the plane
is looked up, optionally inverted, and saved as
`output_dir/base_name ++ suffix ++ ".png"` with a `Saved:` log line.  The
first failing save aborts the loop with that error; events already emitted
are kept by the caller. -/
def saveChannels (env : Env) (inv : Option (List Char)) (channels : List (List Nat))
    (base_name output_dir : List Char) :
    List (List Char × Nat) → List Event × Option (List Char)
  | [] => ([], none)
  | (suffix, channel_index) :: rest =>
    if channel_index < channels.length then
      let channel := channels.getD channel_index []
      let channel := applyInversion inv (suffix.getD 1 ' ') channel
      let output_filename := base_name ++ suffix ++ (".png".data)
      let output_path := pathJoin output_dir output_filename
      match env.save output_path with
      | Except.error e => ([], some e)
      | Except.ok _ =>
        let r := saveChannels env inv channels base_name output_dir rest
        (Event.save output_path channel :: Event.log (("Saved: ".data) ++ output_path) :: r.1,
         r.2)
    else saveChannels env inv channels base_name output_dir rest

/-- The body of the per-file `try` block, script.py lines 40-83: open the
image, convert to RGBA when needed, split, compute the base name and the
output directory, run the channel loop, and log `Processed:` on success.
The second component is the exception escaping the block, if any; the
first component lists the events emitted before that point. -/
def processFile (cfg : Config) (env : Env) (filename : List Char) :
    List Event × Option (List Char) :=
  match env.openImage (pathJoin cfg.input_folder filename) with
  | Except.error e => ([], some e)
  | Except.ok img =>
    let img := if img.isRGBA then img else convertRGBA img
    let channels := rasterSplit img
    let base_name := (splitext filename).1
    match outputDirFor cfg env base_name with
    | Except.error e => ([], some e)
    | Except.ok output_dir =>
      let r := saveChannels env cfg.invert_channels channels base_name output_dir channel_info
      match r.2 with
      | some e => (r.1, some e)
      | none => (r.1 ++ [Event.log (("Processed: ".data) ++ filename)], none)

/-- The error log line of script.py line 86. -/
def errorLine (filename e : List Char) : List Char :=
  ("Error processing ".data) ++ filename ++ (": ".data) ++ e

/-- Events contributed by one eligible file: the events of the `try` block
followed, when an exception was caught, by the error log line of the
`except` clause (script.py lines 85-86). -/
def fileEvents (cfg : Config) (env : Env) (filename : List Char) : List Event :=
  let r := processFile cfg env filename
  match r.2 with
  | some e => r.1 ++ [Event.log (errorLine filename e)]
  | none => r.1

/-- The directory loop of script.py lines 37-86: non-eligible entries are
skipped without any event; eligible entries contribute their file events. -/
def processFiles (cfg : Config) (env : Env) : List (List Char) → List Event
  | [] => []
  | f :: rest =>
    (if eligible f then fileEvents cfg env f else []) ++ processFiles cfg env rest

/-- Creation of the output folder at startup, script.py lines 22-23. -/
def ensureOutputDir (cfg : Config) (env : Env) : Except (List Char) Unit :=
  if env.dirExists cfg.output_folder then Except.ok () else env.mkdirs cfg.output_folder

/-- Result of a completed run: the emitted events together with the Python
return value.  `process_texture_channels` has no `return` statement, so the
return value is always the Python `None`, modelled as `none`. -/
structure RunResult where
  events : List Event
  retVal : Option (Nat × Nat)
  deriving DecidableEq

/-- The whole function `process_texture_channels` (script.py lines 7-86):
ensure the output folder, list the source directory (an error here, e.g. a
missing source directory, escapes uncaught), then run the per-file loop.
The function body contains no `return`, so a completed run carries the
return value `none`. -/
def processTextureChannels (cfg : Config) (env : Env) : Except (List Char) RunResult :=
  match ensureOutputDir cfg env with
  | Except.error e => Except.error e
  | Except.ok _ =>
    match env.listdir cfg.input_folder with
    | Except.error e => Except.error e
    | Except.ok files => Except.ok ⟨processFiles cfg env files, none⟩

/-- Projection used to observe the Python return value of a run: `none` when
the run raised, `some r` with the modelled return value `r` otherwise. -/
def runReturnValue (x : Except (List Char) RunResult) : Option (Option (Nat × Nat)) :=
  match x with
  | Except.ok r => some r.retVal
  | Except.error _ => none

/-- Events of a run that completed, and `[]` for a run that raised. -/
def runEvents (cfg : Config) (env : Env) : List Event :=
  match processTextureChannels cfg env with
  | Except.ok r => r.events
  | Except.error _ => []

/-- Paths of the save events, in order. -/
def savedPaths : List Event → List (List Char)
  | [] => []
  | Event.save p _ :: rest => p :: savedPaths rest
  | Event.log _ :: rest => savedPaths rest

/-- Payloads of the save events, in order. -/
def savedPlanes : List Event → List (List Nat)
  | [] => []
  | Event.save _ d :: rest => d :: savedPlanes rest
  | Event.log _ :: rest => savedPlanes rest

/-- Applies the save events, in order, to an output filesystem (a map from
path to file content); each save overwrites the file at its path. -/
def applySaves : List Event → (List Char → Option (List Nat)) → List Char → Option (List Nat)
  | [], fs => fs
  | Event.save p d :: rest, fs => applySaves rest (fun q => if q = p then some d else fs q)
  | Event.log _ :: rest, fs => applySaves rest fs

/-- Content of the last save event at a given path, if any. -/
def lastSaveVal : List Event → List Char → Option (List Nat)
  | [], _ => none
  | Event.save p d :: rest, q =>
    match lastSaveVal rest q with
    | some d2 => some d2
    | none => if q = p then some d else none
  | Event.log _ :: rest, q => lastSaveVal rest q

/-- Occurrence of `pat` as a contiguous substring of `s` (propositional form
of the CPython `in` test). -/
def OccursIn (pat s : List Char) : Prop :=
  ∃ a b, s = a ++ pat ++ b

/-- The eligibility filter, stated the way the spec states it: the
lowercased filename contains the marker substring and ends with one of the
supported extensions. -/
def EligibleSpec (f : List Char) : Prop :=
  OccursIn rmoMarker (lowerName f) ∧
    ∃ ext, ext ∈ supported_formats ∧ ∃ a, lowerName f = a ++ ext

/-- Membership of a channel letter in the invert set, as the spec states
it: the set is present and contains the letter. -/
def InvertMember (inv : Option (List Char)) (c : Char) : Prop :=
  ∃ l, inv = some l ∧ c ∈ l

/-- The destination directory the spec prescribes for a given base name. -/
def outDirSpec (cfg : Config) (base : List Char) : List Char :=
  if cfg.create_subfolders then pathJoin cfg.output_folder base else cfg.output_folder

/-- Well-formed raster: every pixel of every band is an 8-bit value. -/
def rasterWF (r : Raster) : Prop :=
  ∀ pl ∈ rasterSplit r, ∀ v ∈ pl, v ≤ 255

/-- Well-formed decoder: every successfully decoded raster is 8-bit. -/
def EnvWF (env : Env) : Prop :=
  ∀ p r, env.openImage p = Except.ok r → rasterWF r

/-- The four recognized channel letters. -/
def rgbaLetters : List Char := [ 'r', 'g', 'b', 'a' ]

/-- Demo raster: a 1x1 RGB image (3 bands, no alpha). -/
def demoRGB : Raster := Raster.mkRGB [200] [100] [50]

/-- Demo raster: a 1x1 RGBA image. -/
def demoRGBA : Raster := Raster.mkRGBA [200] [100] [50] [255]

/-- Demo configuration: invert the red channel, no subfolders. -/
def cfgDemo : Config := ⟨"in".data, "out".data, some [ 'r' ], false⟩

/-- Demo configuration with per-file subfolders enabled. -/
def cfgSub : Config := ⟨"in".data, "out".data, some [ 'r' ], true⟩

/-- Demo environment: one eligible RGB source file, everything succeeds. -/
def envDemo : Env :=
  ⟨fun _ => Except.ok [("wall_rmo.png".data)],
   fun _ => Except.ok demoRGB,
   fun _ => false,
   fun _ => Except.ok (),
   fun _ => Except.ok ()⟩

/-- Demo environment for failure isolation: decoding `in/bad_rmo.png` fails
with message `boom`, every other image decodes to `demoRGBA`. -/
def envTwo : Env :=
  ⟨fun _ => Except.ok [("bad_rmo.png".data), ("good_rmo.png".data)],
   fun p => if p = ("in/bad_rmo.png".data) then Except.error ("boom".data) else Except.ok demoRGBA,
   fun _ => false,
   fun _ => Except.ok (),
   fun _ => Except.ok ()⟩

/-- Demo environment whose source directory is missing: `os.listdir`
raises. -/
def envMissing : Env :=
  ⟨fun _ => Except.error ("No such file or directory".data),
   fun _ => Except.ok demoRGBA,
   fun _ => true,
   fun _ => Except.ok (),
   fun _ => Except.ok ()⟩

theorem startsWithPat_iff (p s : List Char) :
    startsWithPat p s = true ↔ ∃ t, s = p ++ t := by
  induction p generalizing s with
  | nil => simp [startsWithPat]
  | cons x xs ih =>
    cases s with
    | nil =>
      simp [startsWithPat]
    | cons c cs =>
      rw [startsWithPat, Bool.and_eq_true, beq_iff_eq, ih]
      constructor
      · rintro ⟨rfl, t, rfl⟩
        exact ⟨t, rfl⟩
      · rintro ⟨t, h⟩
        injection h with h1 h2
        exact ⟨h1.symm, t, h2⟩

theorem hasSub_iff (pat s : List Char) :
    hasSub pat s = true ↔ OccursIn pat s := by
  induction s with
  | nil =>
    constructor
    · intro h
      have hp : pat = [] := by simpa [hasSub, List.isEmpty_iff] using h
      exact ⟨[], [], by simp [hp]⟩
    · rintro ⟨a, b, h⟩
      have h2 := h.symm
      simp only [List.append_assoc, List.append_eq_nil] at h2
      simp [hasSub, List.isEmpty_iff, h2.2.1]
  | cons c rest ih =>
    rw [hasSub, Bool.or_eq_true, startsWithPat_iff, ih]
    constructor
    · rintro (⟨t, h⟩ | ⟨a, b, h⟩)
      · exact ⟨[], t, by simpa using h⟩
      · exact ⟨c :: a, b, by simp [h]⟩
    · rintro ⟨a, b, h⟩
      cases a with
      | nil => exact Or.inl ⟨b, by simpa using h⟩
      | cons a0 as =>
        injection h with h1 h2
        exact Or.inr ⟨as, b, h2⟩

theorem endsWithPat_iff (s pat : List Char) :
    endsWithPat s pat = true ↔ ∃ a, s = a ++ pat := by
  rw [endsWithPat, startsWithPat_iff]
  constructor
  · rintro ⟨t, h⟩
    refine ⟨t.reverse, ?_⟩
    have h2 := congrArg List.reverse h
    simpa using h2
  · rintro ⟨a, rfl⟩
    exact ⟨a.reverse, by simp⟩

theorem eligible_iff (f : List Char) : eligible f = true ↔ EligibleSpec f := by
  simp only [eligible, Bool.and_eq_true, hasSub_iff, List.any_eq_true, endsWithPat_iff,
    EligibleSpec]

theorem splitAtLastDot_eq_none {s : List Char} (h : splitAtLastDot s = none) : '.' ∉ s := by
  induction s with
  | nil => simp
  | cons c rest ih =>
    rw [splitAtLastDot] at h
    cases hr : splitAtLastDot rest with
    | some p => rw [hr] at h; cases h
    | none =>
      rw [hr] at h
      by_cases hc : c == '.'
      · rw [if_pos hc] at h; cases h
      · rw [if_neg hc] at h
        intro hm
        rcases List.mem_cons.mp hm with h1 | h1
        · exact hc (by simp [← h1])
        · exact ih hr h1

theorem splitAtLastDot_spec {s b e : List Char} (h : splitAtLastDot s = some (b, e)) :
    s = b ++ e ∧ ∃ t, e = '.' :: t ∧ '.' ∉ t := by
  induction s generalizing b e with
  | nil => cases h
  | cons c rest ih =>
    rw [splitAtLastDot] at h
    cases hr : splitAtLastDot rest with
    | some p =>
      obtain ⟨b2, e2⟩ := p
      rw [hr] at h
      have h2 := Option.some.inj h
      have hb : b = c :: b2 := (congrArg Prod.fst h2).symm
      have he : e = e2 := (congrArg Prod.snd h2).symm
      subst hb he
      obtain ⟨ih1, t, ht, hnt⟩ := ih hr
      exact ⟨by simp [ih1], t, ht, hnt⟩
    | none =>
      rw [hr] at h
      by_cases hc : c == '.'
      · rw [if_pos hc] at h
        have h2 := Option.some.inj h
        have hb : b = [] := (congrArg Prod.fst h2).symm
        have he : e = c :: rest := (congrArg Prod.snd h2).symm
        subst hb he
        have hcc : c = '.' := by simpa using hc
        subst hcc
        exact ⟨by simp, rest, rfl, splitAtLastDot_eq_none hr⟩
      · rw [if_neg hc] at h; cases h

theorem occursIn_append_left {pat x : List Char} (y : List Char) (h : OccursIn pat x) :
    OccursIn pat (x ++ y) := by
  obtain ⟨a, b, rfl⟩ := h
  exact ⟨a, b ++ y, by simp⟩

theorem occursIn_append_cons {pat x y : List Char} {d : Char} (hd : d ∉ pat)
    (h : OccursIn pat (x ++ d :: y)) : OccursIn pat x ∨ OccursIn pat y := by
  obtain ⟨a, b, hab⟩ := h
  rw [List.append_assoc] at hab
  rcases List.append_eq_append_iff.mp hab with ⟨a2, ha, h1⟩ | ⟨c2, hc, h1⟩
  · cases a2 with
    | nil =>
      rw [List.nil_append] at h1
      cases pat with
      | nil => exact Or.inr ⟨[], y, by simp⟩
      | cons p ps =>
        rw [List.cons_append] at h1
        injection h1 with h2 h3
        exact absurd (h2 ▸ List.mem_cons_self p ps) hd
    | cons e a3 =>
      rw [List.cons_append] at h1
      injection h1 with h2 h3
      refine Or.inr ⟨a3, b, ?_⟩
      rw [h3, List.append_assoc]
  · rcases List.append_eq_append_iff.mp h1 with ⟨p2, hcp, hb2⟩ | ⟨q, hpq, h3⟩
    · refine Or.inl ⟨a, p2, ?_⟩
      rw [hc, hcp, List.append_assoc]
    · cases q with
      | nil =>
        refine Or.inl ⟨a, [], ?_⟩
        rw [List.append_nil] at hpq
        rw [hc, hpq]
        simp
      | cons e q2 =>
        rw [List.cons_append] at h3
        injection h3 with h4 h5
        exact absurd (hpq ▸ List.mem_append_right c2 (h4 ▸ List.mem_cons_self e q2)) hd

theorem last_seg_unique {d : Char} {u v u2 v2 : List Char} (hv : d ∉ v) (hv2 : d ∉ v2)
    (h : u ++ d :: v = u2 ++ d :: v2) : u = u2 ∧ v = v2 := by
  rcases List.append_eq_append_iff.mp h with ⟨a2, ha, h1⟩ | ⟨c2, hc, h1⟩
  · cases a2 with
    | nil =>
      injection h1 with h2 h3
      exact ⟨by simp [ha], h3⟩
    | cons e a3 =>
      rw [List.cons_append] at h1
      injection h1 with h2 h3
      exact absurd (h3 ▸ List.mem_append_right a3 (h2 ▸ List.mem_cons_self d v2)) hv
  · cases c2 with
    | nil =>
      injection h1 with h2 h3
      exact ⟨by simp [hc], h3.symm⟩
    | cons e c3 =>
      rw [List.cons_append] at h1
      injection h1 with h2 h3
      exact absurd (h3 ▸ List.mem_append_right c3 (h2 ▸ List.mem_cons_self d v)) hv2

theorem toNat_ofNat_valid (n : Nat) (h : n.isValidChar) : (Char.ofNat n).toNat = n := by
  rw [Char.ofNat, dif_pos h]
  rfl

theorem toLower_eq_dot {c : Char} (h : Char.toLower c = '.') : c = '.' := by
  rw [Char.toLower] at h
  split at h
  · exfalso
    next hn =>
    have h2 := congrArg Char.toNat h
    rw [toNat_ofNat_valid _ (Or.inl (by omega))] at h2
    have h3 : Char.toNat '.' = 46 := by decide
    omega
  · exact h

theorem dot_not_mem_lowerName {t : List Char} (h : '.' ∉ t) : '.' ∉ lowerName t := by
  intro hm
  obtain ⟨c, hc, he⟩ := List.mem_map.mp hm
  exact h (toLower_eq_dot he ▸ hc)

theorem lowerName_append (x y : List Char) :
    lowerName (x ++ y) = lowerName x ++ lowerName y :=
  List.map_append Char.toLower x y

theorem lowerName_cons (c : Char) (x : List Char) :
    lowerName (c :: x) = Char.toLower c :: lowerName x := rfl

theorem mem_of_occursIn {pat s : List Char} {c : Char} (hc : c ∈ pat) (h : OccursIn pat s) :
    c ∈ s := by
  obtain ⟨a, b, rfl⟩ := h
  exact List.mem_append_left b (List.mem_append_right a hc)

theorem supported_ext_shape {ext : List Char} (h : ext ∈ supported_formats) :
    ∃ et, ext = '.' :: et ∧ '.' ∉ et ∧ '_' ∉ et := by
  simp only [supported_formats, List.mem_cons, List.not_mem_nil, or_false] at h
  rcases h with h | h | h | h | h | h | h | h
  all_goals subst h
  all_goals exact ⟨_, rfl, by decide, by decide⟩

theorem rmo_in_base {f : List Char} (h : eligible f = true) :
    OccursIn rmoMarker (lowerName (splitext f).1) := by
  obtain ⟨hocc, ext, hext, a, ha⟩ := (eligible_iff f).mp h
  cases hs : splitAtLastDot f with
  | none =>
    simp only [splitext, hs]
    exact hocc
  | some p =>
    obtain ⟨B, E⟩ := p
    by_cases hb : B.any (fun c => c != '.')
    · simp only [splitext, hs, if_pos hb]
      obtain ⟨hf, T, hT, hdT⟩ := splitAtLastDot_spec hs
      subst hT
      rw [hf, lowerName_append, lowerName_cons] at hocc
      have hdl : Char.toLower '.' = '.' := by decide
      rw [hdl] at hocc
      rcases occursIn_append_cons (by decide) hocc with hx | hy
      · exact hx
      · exfalso
        obtain ⟨et, hee, hdet, huet⟩ := supported_ext_shape hext
        rw [hf, lowerName_append, lowerName_cons, hdl, hee] at ha
        have h2 := (last_seg_unique (dot_not_mem_lowerName hdT) hdet ha).2
        have h3 : '_' ∈ lowerName T := mem_of_occursIn (by decide) hy
        rw [h2] at h3
        exact huet h3
    · simp only [splitext, hs, if_neg hb]
      exact hocc

/-- Claim C10: the eligibility filter is closed under the program's own
output naming — for every filename that passes the filter and each of the
four output suffixes, the derived output filename
`basename ++ suffix ++ ".png"` also passes the filter (its lowercase form
still contains `_rmo` and it ends with `.png`), so outputs written into the
scanned directory are themselves eligible inputs on a subsequent run. -/
theorem C10_filter_closed_under_output_naming (f sfx : List Char)
    (hs : sfx ∈ [("_r".data), ("_g".data), ("_b".data), ("_a".data)])
    (h : eligible f = true) :
    eligible ((splitext f).1 ++ sfx ++ (".png".data)) = true := by
  rw [eligible_iff]
  constructor
  · have hbase := rmo_in_base h
    have h1 := occursIn_append_left (lowerName sfx) hbase
    have h2 := occursIn_append_left (lowerName (".png".data)) h1
    rw [lowerName_append, lowerName_append]
    exact h2
  · refine ⟨".png".data, by decide, lowerName ((splitext f).1 ++ sfx), ?_⟩
    rw [lowerName_append]
    have hp : lowerName (".png".data) = ".png".data := by decide
    rw [hp]

/-- Witness for C10: the eligible input `wall_rmo.png` yields the output
name `wall_rmo_r.png`, which is itself eligible. -/
theorem C10_witness :
    (("_r".data) ∈ [("_r".data), ("_g".data), ("_b".data), ("_a".data)]) ∧
    eligible ("wall_rmo.png".data) = true ∧
    eligible ((splitext ("wall_rmo.png".data)).1 ++ ("_r".data) ++ (".png".data)) = true :=
  ⟨by decide, by decide, C10_filter_closed_under_output_naming _ _ (by decide) (by decide)⟩

theorem processFile_ok_shape (cfg : Config) (env : Env) (f : List Char)
    (h : (processFile cfg env f).2 = none) :
    ∃ evs, (processFile cfg env f).1 = evs ++ [Event.log (("Processed: ".data) ++ f)] := by
  cases ho : env.openImage (pathJoin cfg.input_folder f) with
  | error e =>
    rw [processFile, ho] at h
    cases h
  | ok img =>
    cases hd : outputDirFor cfg env (splitext f).1 with
    | error e =>
      rw [processFile, ho] at h
      simp only [hd] at h
      cases h
    | ok od =>
      rw [processFile, ho] at h ⊢
      simp only [hd] at h ⊢
      cases hs : (saveChannels env cfg.invert_channels
          (rasterSplit (if img.isRGBA then img else convertRGBA img))
          (splitext f).1 od channel_info).2 with
      | some e =>
        simp only [hs] at h
        cases h
      | none =>
        simp only [hs]
        exact ⟨_, rfl⟩

theorem saveChannels_ok_chars (env : Env) (inv : Option (List Char)) (ch : List (List Nat))
    (b od : List Char) (info : List (List Char × Nat))
    (hall : ∀ pr ∈ info, pr.2 < ch.length)
    (h : (saveChannels env inv ch b od info).2 = none) :
    savedPaths (saveChannels env inv ch b od info).1 =
      info.map (fun pr => pathJoin od (b ++ pr.1 ++ (".png".data))) ∧
    savedPlanes (saveChannels env inv ch b od info).1 =
      info.map (fun pr => applyInversion inv (pr.1.getD 1 ' ') (ch.getD pr.2 [])) := by
  induction info with
  | nil => simp [saveChannels, savedPaths, savedPlanes]
  | cons pr rest ih =>
    obtain ⟨sfx, idx⟩ := pr
    have hidx : idx < ch.length := hall _ (List.mem_cons_self _ _)
    simp only [saveChannels, if_pos hidx] at h ⊢
    cases hsv : env.save (pathJoin od (b ++ sfx ++ (".png".data))) with
    | error e =>
      rw [hsv] at h
      cases h
    | ok u =>
      rw [hsv] at h
      simp only [savedPaths, savedPlanes, List.map_cons]
      have ih2 := ih (fun pr hpr => hall pr (List.mem_cons_of_mem _ hpr)) h
      exact ⟨by rw [ih2.1], by rw [ih2.2]⟩

theorem length_rasterSplit_processed (img : Raster) :
    (rasterSplit (if img.isRGBA then img else convertRGBA img)).length = 4 := by
  cases img <;> rfl

theorem rasterWF_convert {r : Raster} (h : rasterWF r) : rasterWF (convertRGBA r) := by
  cases r with
  | mkL g =>
    intro pl hpl v hv
    simp only [convertRGBA, rasterSplit, List.mem_cons, List.not_mem_nil, or_false] at hpl
    rcases hpl with rfl | rfl | rfl | rfl
    · exact h pl (by simp [rasterSplit]) v hv
    · exact h pl (by simp [rasterSplit]) v hv
    · exact h pl (by simp [rasterSplit]) v hv
    · simp [List.eq_of_mem_replicate hv]
  | mkLA g a =>
    intro pl hpl v hv
    simp only [convertRGBA, rasterSplit, List.mem_cons, List.not_mem_nil, or_false] at hpl
    rcases hpl with rfl | rfl | rfl | rfl
    · exact h pl (by simp [rasterSplit]) v hv
    · exact h pl (by simp [rasterSplit]) v hv
    · exact h pl (by simp [rasterSplit]) v hv
    · exact h pl (by simp [rasterSplit]) v hv
  | mkRGB r g b =>
    intro pl hpl v hv
    simp only [convertRGBA, rasterSplit, List.mem_cons, List.not_mem_nil, or_false] at hpl
    rcases hpl with rfl | rfl | rfl | rfl
    · exact h pl (by simp [rasterSplit]) v hv
    · exact h pl (by simp [rasterSplit]) v hv
    · exact h pl (by simp [rasterSplit]) v hv
    · simp [List.eq_of_mem_replicate hv]
  | mkRGBA r g b a => exact h

theorem wf_processed_split {img : Raster} (h : rasterWF img) :
    ∀ pl ∈ rasterSplit (if img.isRGBA then img else convertRGBA img), ∀ v ∈ pl, v ≤ 255 := by
  by_cases hb : img.isRGBA
  · rw [if_pos hb]; exact h
  · rw [if_neg hb]; exact rasterWF_convert h

theorem applyInversion_wf {inv : Option (List Char)} {letter : Char} {channel : List Nat}
    (h : ∀ v ∈ channel, v ≤ 255) :
    ∀ v ∈ applyInversion inv letter channel, v ≤ 255 := by
  rw [applyInversion]
  split
  · intro v hv
    obtain ⟨w, hw, rfl⟩ := List.mem_map.mp hv
    omega
  · exact h

theorem getD_mem_of_lt {l : List (List Nat)} {n : Nat} (h : n < l.length) :
    l.getD n [] ∈ l := by
  rw [List.getD_eq_getElem?_getD, List.getElem?_eq_getElem h]
  exact List.getElem_mem h

theorem outputDirFor_ok_val {cfg : Config} {env : Env} {b od : List Char}
    (h : outputDirFor cfg env b = Except.ok od) : od = outDirSpec cfg b := by
  simp only [outputDirFor] at h
  rw [outDirSpec]
  by_cases hc : cfg.create_subfolders
  · rw [if_pos hc] at h ⊢
    by_cases he : env.dirExists (pathJoin cfg.output_folder b)
    · rw [if_pos he] at h
      exact (Except.ok.inj h).symm
    · rw [if_neg he] at h
      cases hm : env.mkdirs (pathJoin cfg.output_folder b) with
      | ok u =>
        rw [hm] at h
        exact (Except.ok.inj h).symm
      | error e =>
        rw [hm] at h
        cases h
  · rw [if_neg hc] at h ⊢
    exact (Except.ok.inj h).symm

theorem savedPaths_append (a b : List Event) :
    savedPaths (a ++ b) = savedPaths a ++ savedPaths b := by
  induction a with
  | nil => rfl
  | cons x rest ih => cases x <;> simp [savedPaths, ih]

theorem savedPlanes_append (a b : List Event) :
    savedPlanes (a ++ b) = savedPlanes a ++ savedPlanes b := by
  induction a with
  | nil => rfl
  | cons x rest ih => cases x <;> simp [savedPlanes, ih]

theorem channel_info_indices_lt (img : Raster) :
    ∀ pr ∈ channel_info,
      pr.2 < (rasterSplit (if img.isRGBA then img else convertRGBA img)).length := by
  intro pr hpr
  rw [length_rasterSplit_processed]
  simp only [channel_info, List.mem_cons, List.not_mem_nil, or_false] at hpr
  rcases hpr with rfl | rfl | rfl | rfl <;> decide

theorem processFile_ok_saved (cfg : Config) (env : Env) (f : List Char)
    (h : (processFile cfg env f).2 = none) :
    savedPaths (processFile cfg env f).1 =
      [pathJoin (outDirSpec cfg (splitext f).1) ((splitext f).1 ++ ("_r".data) ++ (".png".data)),
       pathJoin (outDirSpec cfg (splitext f).1) ((splitext f).1 ++ ("_g".data) ++ (".png".data)),
       pathJoin (outDirSpec cfg (splitext f).1) ((splitext f).1 ++ ("_b".data) ++ (".png".data)),
       pathJoin (outDirSpec cfg (splitext f).1) ((splitext f).1 ++ ("_a".data) ++ (".png".data))] := by
  cases ho : env.openImage (pathJoin cfg.input_folder f) with
  | error e =>
    rw [processFile, ho] at h
    cases h
  | ok img =>
    cases hd : outputDirFor cfg env (splitext f).1 with
    | error e =>
      rw [processFile, ho] at h
      simp only [hd] at h
      cases h
    | ok od =>
      rw [processFile, ho] at h ⊢
      simp only [hd] at h ⊢
      cases hs2 : (saveChannels env cfg.invert_channels
          (rasterSplit (if img.isRGBA then img else convertRGBA img))
          (splitext f).1 od channel_info).2 with
      | some e =>
        simp only [hs2] at h
        cases h
      | none =>
        simp only [hs2]
        rw [savedPaths_append]
        have hch := (saveChannels_ok_chars env cfg.invert_channels _ (splitext f).1 od
          channel_info (channel_info_indices_lt img) hs2).1
        rw [hch, outputDirFor_ok_val hd]
        simp [channel_info, savedPaths]

theorem processFile_planes_wf (cfg : Config) (env : Env) (f : List Char)
    (hwf : EnvWF env) (h : (processFile cfg env f).2 = none) :
    ∀ pl ∈ savedPlanes (processFile cfg env f).1, ∀ v ∈ pl, v ≤ 255 := by
  cases ho : env.openImage (pathJoin cfg.input_folder f) with
  | error e =>
    rw [processFile, ho] at h
    cases h
  | ok img =>
    cases hd : outputDirFor cfg env (splitext f).1 with
    | error e =>
      rw [processFile, ho] at h
      simp only [hd] at h
      cases h
    | ok od =>
      rw [processFile, ho] at h ⊢
      simp only [hd] at h ⊢
      cases hs2 : (saveChannels env cfg.invert_channels
          (rasterSplit (if img.isRGBA then img else convertRGBA img))
          (splitext f).1 od channel_info).2 with
      | some e =>
        simp only [hs2] at h
        cases h
      | none =>
        simp only [hs2]
        rw [savedPlanes_append]
        have hch := (saveChannels_ok_chars env cfg.invert_channels _ (splitext f).1 od
          channel_info (channel_info_indices_lt img) hs2).2
        intro pl hpl
        rw [hch] at hpl
        simp only [savedPlanes, List.append_nil] at hpl
        obtain ⟨pr, hpr, rfl⟩ := List.mem_map.mp hpl
        refine applyInversion_wf ?_
        exact wf_processed_split (hwf _ _ ho) _
          (getD_mem_of_lt (channel_info_indices_lt img pr hpr))

theorem processFiles_cons (cfg : Config) (env : Env) (f : List Char) (rest : List (List Char)) :
    processFiles cfg env (f :: rest) =
      (if eligible f then fileEvents cfg env f else []) ++ processFiles cfg env rest := rfl

theorem processFiles_append (cfg : Config) (env : Env) (xs ys : List (List Char)) :
    processFiles cfg env (xs ++ ys) = processFiles cfg env xs ++ processFiles cfg env ys := by
  induction xs with
  | nil => rfl
  | cons x rest ih => simp [processFiles_cons, ih]

theorem fileEvents_of_err {cfg : Config} {env : Env} {f e : List Char}
    (herr : (processFile cfg env f).2 = some e) :
    fileEvents cfg env f = (processFile cfg env f).1 ++ [Event.log (errorLine f e)] := by
  rw [fileEvents, herr]

theorem fileEvents_ne_nil (cfg : Config) (env : Env) (f : List Char) :
    fileEvents cfg env f ≠ [] := by
  rw [fileEvents]
  cases hr : (processFile cfg env f).2 with
  | some e => simp
  | none =>
    obtain ⟨evs, hevs⟩ := processFile_ok_shape cfg env f hr
    simp [hevs]

theorem applySaves_eq_lastSaveVal (E : List Event) (fs : List Char → Option (List Nat))
    (q : List Char) :
    applySaves E fs q = match lastSaveVal E q with
      | some d => some d
      | none => fs q := by
  induction E generalizing fs with
  | nil => rfl
  | cons x rest ih =>
    cases x with
    | log l => rw [applySaves, lastSaveVal, ih]
    | save p d =>
      rw [applySaves, lastSaveVal, ih]
      cases lastSaveVal rest q with
      | some d2 => rfl
      | none =>
        by_cases hq : q = p
        · simp [hq]
        · simp [hq]

theorem applySaves_idem (E : List Event) (fs : List Char → Option (List Nat)) :
    applySaves E (applySaves E fs) = applySaves E fs := by
  funext q
  rw [applySaves_eq_lastSaveVal, applySaves_eq_lastSaveVal]
  cases h : lastSaveVal E q with
  | some d => rfl
  | none => rfl

theorem truthyMem_filter_rgba (S : List Char) {c : Char} (hc : c ∈ rgbaLetters) :
    truthyMem (some (S.filter (fun x => rgbaLetters.contains x))) c = truthyMem (some S) c := by
  rw [truthyMem, truthyMem]
  by_cases hm : c ∈ S
  · have h1 : c ∈ S.filter (fun x => rgbaLetters.contains x) :=
      List.mem_filter.mpr ⟨hm, by simp [List.contains, List.elem_eq_mem, hc]⟩
    have e1 : (S.filter (fun x => rgbaLetters.contains x)).contains c = true := by
      simp [List.contains, List.elem_eq_mem]
      exact ⟨hm, hc⟩
    have e2 : S.contains c = true := by simp [List.contains, List.elem_eq_mem, hm]
    have n1 : (S.filter (fun x => rgbaLetters.contains x)).isEmpty = false :=
      List.isEmpty_eq_false.mpr (List.ne_nil_of_mem h1)
    have n2 : S.isEmpty = false := List.isEmpty_eq_false.mpr (List.ne_nil_of_mem hm)
    rw [e1, e2, n1, n2]
  · have e2 : S.contains c = false := by simp [List.contains, List.elem_eq_mem, hm]
    have e1 : (S.filter (fun x => rgbaLetters.contains x)).contains c = false := by
      simp only [List.contains, List.elem_eq_mem, decide_eq_false_iff_not]
      intro h
      exact hm (List.mem_filter.mp h).1
    rw [e1, e2, Bool.and_false, Bool.and_false]

theorem saveChannels_truthy_congr (env : Env) (inv1 inv2 : Option (List Char))
    (ch : List (List Nat)) (b od : List Char) (info : List (List Char × Nat))
    (h : ∀ pr ∈ info, truthyMem inv1 (pr.1.getD 1 ' ') = truthyMem inv2 (pr.1.getD 1 ' ')) :
    saveChannels env inv1 ch b od info = saveChannels env inv2 ch b od info := by
  induction info with
  | nil => rfl
  | cons pr rest ih =>
    obtain ⟨sfx, idx⟩ := pr
    have hhd := h _ (List.mem_cons_self _ _)
    have htl := fun pr hpr => h pr (List.mem_cons_of_mem _ hpr)
    by_cases hidx : idx < ch.length
    · simp only [saveChannels, if_pos hidx, applyInversion, hhd, ih htl]
    · simp only [saveChannels, if_neg hidx]
      exact ih htl

theorem processFile_truthy_congr (cfg1 cfg2 : Config) (env : Env) (f : List Char)
    (hin : cfg1.input_folder = cfg2.input_folder)
    (hout : cfg1.output_folder = cfg2.output_folder)
    (hsub : cfg1.create_subfolders = cfg2.create_subfolders)
    (htm : ∀ pr ∈ channel_info, truthyMem cfg1.invert_channels (pr.1.getD 1 ' ')
        = truthyMem cfg2.invert_channels (pr.1.getD 1 ' ')) :
    processFile cfg1 env f = processFile cfg2 env f := by
  have hdir : outputDirFor cfg1 env (splitext f).1 = outputDirFor cfg2 env (splitext f).1 := by
    simp only [outputDirFor, hout, hsub]
  have hsc : ∀ ch b od, saveChannels env cfg1.invert_channels ch b od channel_info
      = saveChannels env cfg2.invert_channels ch b od channel_info :=
    fun ch b od => saveChannels_truthy_congr env _ _ ch b od channel_info htm
  rw [processFile, processFile, hin]
  simp only [hdir, hsc]

theorem processFiles_truthy_congr (cfg1 cfg2 : Config) (env : Env) (files : List (List Char))
    (hin : cfg1.input_folder = cfg2.input_folder)
    (hout : cfg1.output_folder = cfg2.output_folder)
    (hsub : cfg1.create_subfolders = cfg2.create_subfolders)
    (htm : ∀ pr ∈ channel_info, truthyMem cfg1.invert_channels (pr.1.getD 1 ' ')
        = truthyMem cfg2.invert_channels (pr.1.getD 1 ' ')) :
    processFiles cfg1 env files = processFiles cfg2 env files := by
  induction files with
  | nil => rfl
  | cons f rest ih =>
    rw [processFiles_cons, processFiles_cons, ih, fileEvents, fileEvents,
      processFile_truthy_congr cfg1 cfg2 env f hin hout hsub htm]

theorem truthyMem_iff (inv : Option (List Char)) (c : Char) :
    truthyMem inv c = true ↔ InvertMember inv c := by
  cases inv with
  | none => simp [truthyMem, InvertMember]
  | some l =>
    rw [truthyMem]
    simp only [Bool.and_eq_true, Bool.not_eq_true']
    constructor
    · rintro ⟨h1, h2⟩
      exact ⟨l, rfl, by simpa [List.contains, List.elem_eq_mem] using h2⟩
    · rintro ⟨l2, hl, hc⟩
      injection hl with hl2
      subst hl2
      exact ⟨List.isEmpty_eq_false.mpr (List.ne_nil_of_mem hc),
        by simp [List.contains, List.elem_eq_mem, hc]⟩

/-- Claim C1, counterexample: the script decodes `wall_rmo.png` as a
3-channel RGB image (no alpha), yet emits 4 planes including the
alpha-suffixed `out/wall_rmo_a.png`, so the emitted plane count is not
`min(4, channel count of the decoded image) = 3` and an alpha output is
produced. -/
theorem C1_counterexample :
    bandCount demoRGB = 3 ∧
    envDemo.openImage ("in/wall_rmo.png".data) = Except.ok demoRGB ∧
    savedPaths (runEvents cfgDemo envDemo) =
      [("out/wall_rmo_r.png".data), ("out/wall_rmo_g.png".data),
       ("out/wall_rmo_b.png".data), ("out/wall_rmo_a.png".data)] :=
  ⟨rfl, rfl, rfl⟩

/-- Claim C1 (amended): for every source file whose per-file processing
completes without error, exactly 4 channel planes are emitted (the decoded
image is first normalized to RGBA), and in particular an alpha-suffixed
output is always among them, even for images decoded with fewer than 4
channels. -/
theorem C1_amended_planes_always_four (cfg : Config) (env : Env) (f : List Char)
    (h : (processFile cfg env f).2 = none) :
    (savedPaths (processFile cfg env f).1).length = 4 ∧
    pathJoin (outDirSpec cfg (splitext f).1) ((splitext f).1 ++ ("_a".data) ++ (".png".data))
      ∈ savedPaths (processFile cfg env f).1 := by
  rw [processFile_ok_saved cfg env f h]
  exact ⟨rfl, by simp⟩

/-- Witness for C1 (amended): the demo RGB file is processed without error
and yields 4 planes. -/
theorem C1_amended_witness :
    ((processFile cfgDemo envDemo ("wall_rmo.png".data)).2 = none) ∧
    (savedPaths (processFile cfgDemo envDemo ("wall_rmo.png".data)).1).length = 4 :=
  ⟨rfl, (C1_amended_planes_always_four cfgDemo envDemo ("wall_rmo.png".data) rfl).1⟩

/-- Claim C2, counterexample: on a run that fully succeeds and processes one
file (so that `(count_processed, count_failed)` would be `(1, 0)`), the
Python return value of `process_texture_channels` is `None` (the function
body has no `return` statement), not a pair of counts. -/
theorem C2_counterexample :
    runReturnValue (processTextureChannels cfgDemo envDemo) = some none := rfl

/-- Claim C2 (amended): the processing operation returns no counts — every
completed run returns the Python `None`; per-file outcomes are reported
only through the log lines. -/
theorem C2_amended_returns_none (cfg : Config) (env : Env) (r : RunResult)
    (h : processTextureChannels cfg env = Except.ok r) : r.retVal = none := by
  rw [processTextureChannels] at h
  cases he : ensureOutputDir cfg env with
  | error e => rw [he] at h; cases h
  | ok u =>
    rw [he] at h
    cases hl : env.listdir cfg.input_folder with
    | error e => rw [hl] at h; cases h
    | ok files =>
      rw [hl] at h
      exact (congrArg RunResult.retVal (Except.ok.inj h)).symm

/-- Witness for C2 (amended): the demo run completes and returns `none`. -/
theorem C2_amended_witness :
    (processTextureChannels cfgDemo envDemo
        = Except.ok ⟨runEvents cfgDemo envDemo, none⟩) ∧
    (RunResult.mk (runEvents cfgDemo envDemo) none).retVal = none := by
  have h : processTextureChannels cfgDemo envDemo
      = Except.ok ⟨runEvents cfgDemo envDemo, none⟩ := rfl
  exact ⟨h, C2_amended_returns_none cfgDemo envDemo _ h⟩

/-- Claim C3: a directory entry is processed iff its lowercase form contains
the literal substring `_rmo` and ends with one of the supported extensions;
non-matching entries contribute no output and no log line; matching entries
always contribute at least one event; and the mixed-case `Metal_RMO.TGA` is
matched. -/
theorem C3_eligibility_filter (cfg : Config) (env : Env) (f : List Char)
    (rest : List (List Char)) :
    (eligible f = true ↔ EligibleSpec f) ∧
    (eligible f = false → processFiles cfg env (f :: rest) = processFiles cfg env rest) ∧
    (eligible f = true → fileEvents cfg env f ≠ []) ∧
    eligible ("Metal_RMO.TGA".data) = true := by
  refine ⟨eligible_iff f, ?_, ?_, by decide⟩
  · intro hne
    rw [processFiles_cons, if_neg (by simp [hne])]
    rfl
  · intro _
    exact fileEvents_ne_nil cfg env f

/-- Witness for C3: `floor_diffuse.png` is skipped without any event, while
`Metal_RMO.TGA` passes the filter. -/
theorem C3_witness :
    eligible ("floor_diffuse.png".data) = false ∧
    processFiles cfgDemo envDemo (("floor_diffuse.png".data) :: []) =
      processFiles cfgDemo envDemo [] ∧
    eligible ("Metal_RMO.TGA".data) = true := by
  refine ⟨by decide, ?_, ?_⟩
  · exact (C3_eligibility_filter cfgDemo envDemo ("floor_diffuse.png".data) []).2.1 (by decide)
  · exact (C3_eligibility_filter cfgDemo envDemo ("floor_diffuse.png".data) []).2.2.2

/-- Claim C4: for a channel whose letter is a member of the invert set,
every output pixel equals `255 - v` for the source pixel `v`; for a letter
not in the invert set (including an empty or absent set), the output equals
the source exactly. -/
theorem C4_inversion_law (inv : Option (List Char)) (c : Char) (p : List Nat) :
    (InvertMember inv c → applyInversion inv c p = p.map (fun v => 255 - v)) ∧
    (¬ InvertMember inv c → applyInversion inv c p = p) := by
  constructor
  · intro hm
    rw [applyInversion, if_pos ((truthyMem_iff inv c).mpr hm)]
  · intro hm
    rw [applyInversion, if_neg (fun h => hm ((truthyMem_iff inv c).mp h))]

/-- Witness for C4: with invert set `{r}`, the red plane `[200, 0]` becomes
`[55, 255]` while the green plane is returned unchanged. -/
theorem C4_witness :
    applyInversion (some [ 'r' ]) 'r' [200, 0] = [55, 255] ∧
    applyInversion (some [ 'r' ]) 'g' [200, 0] = [200, 0] := by
  constructor
  · rw [(C4_inversion_law (some [ 'r' ]) 'r' [200, 0]).1 ⟨[ 'r' ], rfl, by decide⟩]
    decide
  · rw [(C4_inversion_law (some [ 'r' ]) 'g' [200, 0]).2 ?hg]
    case hg =>
      rintro ⟨l, hl, hc⟩
      injection hl with hl2
      subst hl2
      exact absurd hc (by decide)

/-- Claim C5: a failure while processing one source file is caught at the
granularity of that file — the batch emits the partial events of that file
followed by one error log line carrying the filename and the reason, and
every other file of the batch (before and after) is processed exactly as it
would be otherwise. -/
theorem C5_per_file_failure_isolation (cfg : Config) (env : Env)
    (pre post : List (List Char)) (f e : List Char)
    (hf : eligible f = true) (herr : (processFile cfg env f).2 = some e) :
    processFiles cfg env (pre ++ f :: post) =
      processFiles cfg env pre
        ++ ((processFile cfg env f).1 ++ [Event.log (errorLine f e)])
        ++ processFiles cfg env post := by
  rw [processFiles_append, processFiles_cons, if_pos hf, fileEvents_of_err herr]
  simp [List.append_assoc]

/-- Witness for C5: the decode failure on `bad_rmo.png` yields one error log
line and the subsequent `good_rmo.png` is still processed. -/
theorem C5_witness :
    eligible ("bad_rmo.png".data) = true ∧
    (processFile cfgDemo envTwo ("bad_rmo.png".data)).2 = some ("boom".data) ∧
    processFiles cfgDemo envTwo ([] ++ ("bad_rmo.png".data) :: [("good_rmo.png".data)]) =
      processFiles cfgDemo envTwo []
        ++ ((processFile cfgDemo envTwo ("bad_rmo.png".data)).1
            ++ [Event.log (errorLine ("bad_rmo.png".data) ("boom".data))])
        ++ processFiles cfgDemo envTwo [("good_rmo.png".data)] :=
  ⟨by decide, by decide,
    C5_per_file_failure_isolation cfgDemo envTwo [] [("good_rmo.png".data)]
      ("bad_rmo.png".data) ("boom".data) (by decide) (by decide)⟩

/-- Claim C6: each write overwrites any existing file of the same name, and
re-running the batch on identical inputs (with subfolder creation enabled)
leaves the output filesystem unchanged — the second run writes byte-for-byte
the same contents. -/
theorem C6_rerun_idempotent_overwrite (cfg : Config) (env : Env)
    (fs : List Char → Option (List Nat)) (p : List Char) (d : List Nat)
    (h : cfg.create_subfolders = true) :
    applySaves [Event.save p d] fs p = some d ∧
    applySaves (runEvents cfg env) (applySaves (runEvents cfg env) fs)
      = applySaves (runEvents cfg env) fs :=
  ⟨by simp [applySaves], applySaves_idem _ _⟩

/-- Witness for C6: re-running the demo batch with subfolders enabled on an
empty output filesystem changes nothing the second time. -/
theorem C6_witness :
    cfgSub.create_subfolders = true ∧
    (applySaves [Event.save ("p".data) [1]] (fun _ => none) ("p".data) = some [1] ∧
      applySaves (runEvents cfgSub envDemo)
          (applySaves (runEvents cfgSub envDemo) (fun _ => none))
        = applySaves (runEvents cfgSub envDemo) (fun _ => none)) :=
  ⟨rfl, C6_rerun_idempotent_overwrite cfgSub envDemo (fun _ => none) ("p".data) [1] rfl⟩

/-- Claim C7: for every source file whose processing completes, the outputs
are saved in the fixed order `_r, _g, _b, _a` under the names
`basename ++ suffix ++ ".png"`, placed in the destination folder directly
(or in `destination/basename` with subfolders enabled), and every saved
plane is a single channel of 8-bit values. -/
theorem C7_output_layout (cfg : Config) (env : Env) (f : List Char)
    (hwf : EnvWF env) (h : (processFile cfg env f).2 = none) :
    savedPaths (processFile cfg env f).1 =
      [pathJoin (outDirSpec cfg (splitext f).1) ((splitext f).1 ++ ("_r".data) ++ (".png".data)),
       pathJoin (outDirSpec cfg (splitext f).1) ((splitext f).1 ++ ("_g".data) ++ (".png".data)),
       pathJoin (outDirSpec cfg (splitext f).1) ((splitext f).1 ++ ("_b".data) ++ (".png".data)),
       pathJoin (outDirSpec cfg (splitext f).1) ((splitext f).1 ++ ("_a".data) ++ (".png".data))] ∧
    ∀ pl ∈ savedPlanes (processFile cfg env f).1, ∀ v ∈ pl, v ≤ 255 :=
  ⟨processFile_ok_saved cfg env f h, processFile_planes_wf cfg env f hwf h⟩

/-- Witness for C7: the demo file is saved as the four expected paths in
order. -/
theorem C7_witness :
    EnvWF envDemo ∧
    savedPaths (processFile cfgDemo envDemo ("wall_rmo.png".data)).1 =
      [("out/wall_rmo_r.png".data), ("out/wall_rmo_g.png".data),
       ("out/wall_rmo_b.png".data), ("out/wall_rmo_a.png".data)] := by
  have hwf : EnvWF envDemo := by
    intro p r h
    cases h
    unfold rasterWF
    decide
  refine ⟨hwf, ?_⟩
  rw [(C7_output_layout cfgDemo envDemo ("wall_rmo.png".data) hwf rfl).1]
  rfl

/-- Claim C8: when the source directory cannot be listed (missing source
directory), the run fails with that error before any file is processed —
the error escapes `process_texture_channels` instead of being handled by
the per-file path, and no events are produced. -/
theorem C8_missing_source_dir_fatal (cfg : Config) (env : Env) (e : List Char)
    (hout : ensureOutputDir cfg env = Except.ok ())
    (h : env.listdir cfg.input_folder = Except.error e) :
    processTextureChannels cfg env = Except.error e := by
  rw [processTextureChannels, hout, h]

/-- Witness for C8: listing the missing demo source directory aborts the
whole run with the listing error. -/
theorem C8_witness :
    ensureOutputDir cfgDemo envMissing = Except.ok () ∧
    envMissing.listdir cfgDemo.input_folder
      = Except.error ("No such file or directory".data) ∧
    processTextureChannels cfgDemo envMissing
      = Except.error ("No such file or directory".data) :=
  ⟨rfl, rfl, C8_missing_source_dir_fatal cfgDemo envMissing _ rfl rfl⟩

/-- Claim C9: invert-set entries outside `{r, g, b, a}` are not an error and
have no effect — a run with invert set `S` emits exactly the events of the
run with `S` restricted to the recognized channel letters. -/
theorem C9_invert_entries_outside_rgba_no_effect (indir outdir : List Char) (sub : Bool)
    (S : List Char) (env : Env) (files : List (List Char)) :
    processFiles ⟨indir, outdir, some S, sub⟩ env files =
      processFiles ⟨indir, outdir, some (S.filter (fun x => rgbaLetters.contains x)), sub⟩
        env files :=
  processFiles_truthy_congr _ _ env files rfl rfl rfl (by
    intro pr hpr
    simp only [channel_info, List.mem_cons, List.not_mem_nil, or_false] at hpr
    rcases hpr with rfl | rfl | rfl | rfl <;>
      exact (truthyMem_filter_rgba S (by decide)).symm)
